import Mathlib

/-!
Shallow embedding of the ingestion-and-reconciliation engine of
doodad-labs/disposable-email-domains.

JavaScript strings are embedded as `List Char`; the JS string methods used by
the source (`trim`, `toLowerCase`, `split`, `startsWith`, `replaceAll`) are
given explicit Lean counterparts below.  Fallible code is embedded with
`Except`; the cooperative scheduler of `throttlePromises` is embedded as a
small-step transition relation with an adversarial scheduler.
-/

section StringPrimitives

/-- Whitespace characters removed by the JavaScript `String.prototype.trim`
(restricted to the ASCII whitespace that can occur in the fetched bodies). -/
def jsIsWs (c : Char) : Bool :=
  c = ' ' || c = '\t' || c = '\n' || c = '\r'

/-- Embedding of `s.trim()`: drop whitespace from both ends. -/
def jsTrim (l : List Char) : List Char :=
  ((l.dropWhile jsIsWs).reverse.dropWhile jsIsWs).reverse

/-- Embedding of `s.toLowerCase()` (ASCII). -/
def jsLower (l : List Char) : List Char := l.map Char.toLower

/-- Embedding of `s.split(c)` for a single-character separator: splitting the
empty string yields `[""]`, and separators at the ends yield empty fields,
exactly as in JavaScript. -/
def jsSplit (c : Char) : List Char → List (List Char)
  | [] => [[]]
  | x :: xs =>
    match jsSplit c xs with
    | [] => [[]]
    | r :: rs => if x = c then [] :: r :: rs else (x :: r) :: rs

/-- Join a list of strings with a single-character separator (the inverse
direction of `jsSplit`, used to present "the same underlying data" as a
newline-delimited body). -/
def joinWith (c : Char) : List (List Char) → List Char
  | [] => []
  | [l] => l
  | l :: ls => l ++ c :: joinWith c ls

/-- Embedding of `s.startsWith("#")`. -/
def startsWithHash (l : List Char) : Bool :=
  match l with
  | [] => false
  | x :: _ => x = '#'

/-- The line filter `line => line && !line.startsWith('#')` applied after
normalisation in `fetchData` (truthiness of a string is non-emptiness). -/
def keepLine (l : List Char) : Bool :=
  !l.isEmpty && !startsWithHash l

end StringPrimitives

section FetchData

/-- A JSON value as far as `fetchData` inspects it: an array of strings, an
object (association list), `null`, or any other scalar. -/
inductive JVal where
  | arr (l : List (List Char))
  | obj (fields : List (List Char × JVal))
  | nullv
  | scalar

/-- An HTTP response as consumed by `fetchData`: the `ok` flag, the outcome of
`response.json()` (`none` models a rejected JSON parse), and the body text
returned by `response.text()`. -/
structure HttpResp where
  ok : Bool
  jsonOut : Option JVal
  text : List Char

/-- The network environment for one `fetch(url)` call: `none` models a
transport error (the `fetch` promise rejecting). -/
def FetchEnv : Type := Option HttpResp

/-- Embedding of the JavaScript member access `json[key]`: accessing a member
of `null` throws a `TypeError` (`.error`), object access looks the key up,
and string-keyed access on arrays or scalars yields `undefined` (`none`). -/
def jsonIndex : JVal → List Char → Except Unit (Option JVal)
  | .nullv, _ => .error ()
  | .obj fields, k =>
    .ok ((fields.find? (fun f => f.1 = k)).map (fun f => f.2))
  | .arr _, _ => .ok none
  | .scalar, _ => .ok none

/-- The plain-text branch of `fetchData`: split on line breaks, trim and
lowercase each line, drop blank and `#`-prefixed lines. -/
def plainExtract (text : List Char) : List (List Char) :=
  ((jsSplit '\n' text).map (fun line => jsLower (jsTrim line))).filter keepLine

/-- The CSV branch of `fetchData`: split each line on commas, take column
`col` (an out-of-range column yields `''` through `|| ''`), trim, lowercase,
strip double quotes, then drop blank and `#`-prefixed lines. -/
def csvExtract (text : List Char) (col : Nat) : List (List Char) :=
  ((jsSplit '\n' text).map (fun line =>
    match (jsSplit ',' line).get? col with
    | none => []
    | some cell => (jsLower (jsTrim cell)).filter (fun c => c ≠ '"'))).filter keepLine

/-- The body of the `try` block of `fetchData` (src/fetch/domains.ts, lines
22–53): throw on transport error or non-OK status; for JSON sources resolve
the extraction key (`'.'` meaning the response root) and return the value if
it is an array, else `[]`; otherwise process the body as CSV or plain text. -/
def fetchDataTry (env : FetchEnv) (key : Option (List Char)) (col : Option Nat) :
    Except Unit (List (List Char)) :=
  match env with
  | none => .error ()
  | some r =>
    if r.ok = false then .error ()
    else
      match key with
      | some k =>
        match r.jsonOut with
        | none => .error ()
        | some j =>
          match (if k = ['.'] then Except.ok (some j) else jsonIndex j k) with
          | .error e => .error e
          | .ok (some (.arr l)) => .ok l
          | .ok _ => .ok []
      | none =>
        match col with
        | some c => .ok (csvExtract r.text c)
        | none => .ok (plainExtract r.text)

/-- Embedding of `fetchData` (src/fetch/domains.ts, lines 21–58): the whole
body runs inside `try`, and the `catch` logs and returns `[]`. -/
def fetchData (env : FetchEnv) (key : Option (List Char)) (col : Option Nat) :
    List (List Char) :=
  match fetchDataTry env key col with
  | .ok l => l
  | .error _ => []

end FetchData

section Reconciliation

/-- The two shared accumulator sets of src/fetch/domains.ts (`allowlistSet`
and `disposables`), embedded as duplicate-free insertion lists. -/
structure RState where
  allow : List (List Char)
  disp : List (List Char)
deriving DecidableEq

/-- Embedding of `Set.prototype.add`: insert if absent. -/
def setAdd (l : List (List Char)) (d : List Char) : List (List Char) :=
  if d ∈ l then l else l ++ [d]

/-- Embedding of `processDomains` (src/fetch/domains.ts, lines 65–75),
parametrised by the domain validator `v` (the `validateDomain` utility is
imported from outside the fetched sources): each validated domain goes to the
allow set when `isAllowlist`, and otherwise to the disposable set only when
it is not in the allow set at the moment of insertion. -/
def processDomains (v : List Char → Bool) (domains : List (List Char))
    (isAllowlist : Bool) (st : RState) : RState :=
  domains.foldl (fun st d =>
    if v d then
      if isAllowlist then { st with allow := setAdd st.allow d }
      else if d ∈ st.allow then st
      else { st with disp := setAdd st.disp d }
    else st) st

/-- One settled ingestion task: the batch of candidate domains it fetched and
whether it was an allowlist task.  Since each task calls `processDomains`
synchronously (no suspension point inside), an interleaving of the ingestion
tasks is a sequence of whole-batch `processDomains` calls. -/
def runBatches (v : List Char → Bool) (batches : List (List (List Char) × Bool))
    (st : RState) : RState :=
  batches.foldl (fun st b => processDomains v b.1 b.2 st) st

/-- The line filter of the local-allowlist loader (src/fetch/domains.ts,
lines 109–111): keep a line iff it is non-blank after trimming and does not
start with `#` before trimming. -/
def keepAllowLine (l : List Char) : Bool :=
  !(jsTrim l).isEmpty && !startsWithHash l

/-- Embedding of the local-allowlist ingestion of `fetchDomains`
(src/fetch/domains.ts, lines 104–119): retained lines are trimmed,
lowercased, and added directly to the allow set with no validation step. -/
def loadLocalAllowlist (fileLines : List (List Char)) (st : RState) : RState :=
  let retained := (fileLines.filter keepAllowLine).map (fun l => jsLower (jsTrim l))
  { st with allow := retained.foldl setAdd st.allow }

/-- Embedding of the publication step of `main` (src/fetch/domains.ts, lines
166–183): the accumulated sets are handed to the list writers as they are —
no subtraction of the allow set from the disposable set is performed. -/
def publishedSets (st : RState) : List (List Char) × List (List Char) :=
  (st.disp, st.allow)

end Reconciliation

section DomainValidator

/-- Character class of a normalised domain label: lowercase letters, digits,
and hyphen. -/
def isDomainChar (c : Char) : Bool :=
  ('a' ≤ c && c ≤ 'z') || ('0' ≤ c && c ≤ '9') || c = '-'

/-- Modelled from the spec: the Domain Validator utility
(`src/utils/validate-domain`) is imported by the fetchers but its source is
not under src/.  Following §3 and §4.1 of the specification it rejects empty
strings and strings lacking domain structure (fewer than two dot-separated
labels, an empty label, or a character outside the normalised domain
alphabet), and requires the top-level label to belong to the known-TLD
registry, to be at most 63 characters, and not to lead or trail with a
hyphen.  The TLD registry is a parameter (it is generated data, also outside
src/). -/
def validateDomain (tlds : List (List Char)) (s : List Char) : Bool :=
  let labels := jsSplit '.' s
  !s.isEmpty &&
  decide (2 ≤ labels.length) &&
  labels.all (fun l => !l.isEmpty && l.all isDomainChar) &&
  (match labels.getLast? with
   | none => false
   | some tld =>
     decide (tld ∈ tlds) && decide (tld.length ≤ 63) &&
     !(tld.head? = some '-') && !(tld.getLast? = some '-'))

end DomainValidator

section TldValidation

/-- The case-insensitive character class of `TLD_VALIDATION_REGEX`
(src/fetch/tlds.ts, line 8): `[a-z0-9-]` with the `i` flag. -/
def isTldRegexChar (c : Char) : Bool :=
  ('a' ≤ c.toLower && c.toLower ≤ 'z') || ('0' ≤ c && c ≤ '9') || c = '-'

/-- Embedding of the generator-side `isValidTld` (src/fetch/tlds.ts, lines
22–30): non-empty, at most `MAX_TLD_LENGTH = 63` characters, matching the
case-insensitive regex `^[a-z0-9-]+$`, and neither starting nor ending with a
hyphen. -/
def isValidTld (tld : List Char) : Bool :=
  decide (0 < tld.length) &&
  decide (tld.length ≤ 63) &&
  tld.all isTldRegexChar &&
  !(tld.head? = some '-') &&
  !(tld.getLast? = some '-')

/-- Embedding of the generated `isValidTld` (src/fetch/tlds.ts, lines 65–67
of the emitted file content): membership of the lowercased input in the
generated TLD set, which `processTlds` populates only with TLDs accepted by
the generator-side `isValidTld`. -/
def isValidTldGen (tldSet : List (List Char)) (domain : List Char) : Bool :=
  decide (jsLower domain ∈ tldSet)

end TldValidation

section Throttle

/-- Control position of the `throttlePromises` driver: inside the `for` loop
between suspension points (`loop`), suspended on `Promise.race(executing)`
(`raceWait`), or suspended on the final `Promise.all(executing)` (`allWait`). -/
inductive Phase where
  | loop
  | raceWait
  | allWait
deriving DecidableEq

/-- A configuration of `throttlePromises` (src/fetch/domains.ts, lines
82–99): tasks not yet started, the `executing` array of unresolved started
tasks, the `results` array, the driver's control position, and (ghost) the
length of `executing` captured at the pending `Promise.race` call.  A task is
identified with the value it eventually resolves to. -/
structure TState (α : Type) where
  pending : List α
  running : List α
  results : List α
  phase : Phase
  raceLen : Nat

/-- The state at entry of `throttlePromises`. -/
def tInit {α : Type} (tasks : List α) : TState α :=
  ⟨tasks, [], [], .loop, 0⟩

/-- Small-step transitions of `throttlePromises` under an adversarial
cooperative scheduler.  The driver starts the next task and pushes it onto
`executing`, suspending on `Promise.race` when the array has reached the
limit; while the driver is suspended, any unresolved task may settle, pushing
its result and splicing itself out of `executing`; the `race` continuation
resumes once at least one task of the captured array has settled; when the
task list is exhausted the driver suspends on `Promise.all`. -/
inductive TStep (N : Nat) {α : Type} : TState α → TState α → Prop where
  | startRace (t : α) (rest run res : List α) (k : Nat)
      (h : N ≤ run.length + 1) :
      TStep N ⟨t :: rest, run, res, .loop, k⟩
              ⟨rest, run ++ [t], res, .raceWait, run.length + 1⟩
  | startSkip (t : α) (rest run res : List α) (k : Nat)
      (h : run.length + 1 < N) :
      TStep N ⟨t :: rest, run, res, .loop, k⟩
              ⟨rest, run ++ [t], res, .loop, k⟩
  | enterAll (run res : List α) (k : Nat) :
      TStep N ⟨[], run, res, .loop, k⟩ ⟨[], run, res, .allWait, k⟩
  | settle (p : List α) (l₁ : List α) (t : α) (l₂ res : List α)
      (ph : Phase) (k : Nat) (h : ph ≠ .loop) :
      TStep N ⟨p, l₁ ++ t :: l₂, res, ph, k⟩
              ⟨p, l₁ ++ l₂, res ++ [t], ph, k⟩
  | resume (p run res : List α) (k : Nat) (h : run.length < k) :
      TStep N ⟨p, run, res, .raceWait, k⟩ ⟨p, run, res, .loop, k⟩

/-- Reachability of a configuration from the entry state of
`throttlePromises` on a given task list. -/
def TReach (N : Nat) {α : Type} (tasks : List α) (s : TState α) : Prop :=
  Relation.ReflTransGen (TStep N) (tInit tasks) s

/-- A configuration from which no transition is possible (every task has
settled and the driver has returned). -/
def TStuck (N : Nat) {α : Type} (s : TState α) : Prop :=
  ∀ s', ¬ TStep N s s'

/-- Weight of a driver position, chosen so that every transition decreases
the measure below. -/
def phaseWeight : Phase → Nat
  | .raceWait => 2
  | .loop => 1
  | .allWait => 0

/-- Termination measure for `throttlePromises` executions. -/
def tMeasure {α : Type} (s : TState α) : Nat :=
  3 * s.pending.length + s.running.length + phaseWeight s.phase

end Throttle

section ExtractLoop

/-- One iteration's worth of page behaviour for the smailpro extraction loop:
either `getCurrentEmail` yields no readable email text (`noEmail`), or it
yields an email whose `processEmailDomain` outcome is `d` (a validated
normalised domain, or `none` for an invalid one) and whose subsequent
`generateNewEmail` call succeeds iff `genOk`. -/
inductive PageEvent where
  | noEmail
  | email (d : Option (List Char)) (genOk : Bool)
deriving DecidableEq

/-- Result of the smailpro extraction loop: the discovered-domain set (as an
insertion list), the `successfulChanges` counter, the number of loop
iterations executed, and whether the supplied event list was exhausted while
the loop guard still held (`starved` — the real loop would keep running). -/
structure LoopResult where
  domains : List (List Char)
  changes : Nat
  iters : Nat
  starved : Bool
deriving DecidableEq

/-- Embedding of the `while (successfulChanges < MAX_EMAIL_CHANGES)` loop of
`extractDomainsFromPage` (smailpro scraper, lines 109–144), driven by a list
of page events.  A `noEmail` iteration just continues (no counter change, no
`generateNewEmail` call); a valid domain is added to the set and counted as a
successful change even when it is already present; an invalid domain changes
nothing; a failing `generateNewEmail` is caught by the iteration's `catch`
and breaks the loop (after any domain recorded in the same iteration). -/
def extractLoop (maxChanges : Nat) :
    List PageEvent → List (List Char) → Nat → LoopResult
  | evs, doms, sc =>
    if maxChanges ≤ sc then ⟨doms, sc, 0, false⟩
    else
      match evs with
      | [] => ⟨doms, sc, 0, true⟩
      | e :: rest =>
        match e with
        | .noEmail =>
          let r := extractLoop maxChanges rest doms sc
          ⟨r.domains, r.changes, r.iters + 1, r.starved⟩
        | .email none true =>
          let r := extractLoop maxChanges rest doms sc
          ⟨r.domains, r.changes, r.iters + 1, r.starved⟩
        | .email none false => ⟨doms, sc, 1, false⟩
        | .email (some d) true =>
          let r := extractLoop maxChanges rest (setAdd doms d) (sc + 1)
          ⟨r.domains, r.changes, r.iters + 1, r.starved⟩
        | .email (some d) false => ⟨setAdd doms d, sc + 1, 1, false⟩

/-- A page event that makes progress towards loop exit: it either records a
valid domain (incrementing `successfulChanges`) or raises an error in
`generateNewEmail` (breaking the loop). -/
def progressEvent : PageEvent → Bool
  | .noEmail => false
  | .email (some _) _ => true
  | .email none genOk => !genOk

end ExtractLoop

section RetryController

/-- Outcome of one attempt of the smailpro `scrapeWithBrowser` session:
`launchBrowserWithProxy` returns `null` (`launchFail`), the session body
throws after a successful launch (`sessErr` — navigation failure or an
uncaught extraction error), or the session returns a domain set (`ok`). -/
inductive Attempt where
  | launchFail
  | sessErr
  | ok (ds : List (List Char))

/-- Observable trace of one `scrapeWithBrowser` call: the inter-attempt
delays inserted (in milliseconds, in order), the final outcome (`.error`
models the function throwing `lastError`), and the number of attempts
executed. -/
structure RetryRun where
  delays : List Nat
  result : Except Unit (List (List Char))
  attempts : Nat

/-- Recursion over the remaining attempts of the `for (attempt = 1;
attempt <= MAX_RETRIES; ...)` loop of the smailpro `scrapeWithBrowser`
(lines 68–101): a launch failure records the error and `continue`s with no
delay; a thrown session error sleeps `delayMs * attempt` when another attempt
remains; a successful session returns its domains; an exhausted loop throws
`lastError`. -/
def retryFrom (script : Nat → Attempt) (maxR delayMs : Nat) : Nat → RetryRun
  | 0 => ⟨[], .error (), 0⟩
  | r + 1 =>
    let attempt := maxR - r
    match script attempt with
    | .launchFail =>
      let rest := retryFrom script maxR delayMs r
      ⟨rest.delays, rest.result, rest.attempts + 1⟩
    | .sessErr =>
      let rest := retryFrom script maxR delayMs r
      ⟨(if attempt < maxR then [delayMs * attempt] else []) ++ rest.delays,
       rest.result, rest.attempts + 1⟩
    | .ok ds => ⟨[], .ok ds, 1⟩

/-- Embedding of the smailpro `scrapeWithBrowser` with the source constants
`MAX_RETRIES = 3` and `RETRY_DELAY_MS = 2000`, driven by a script giving the
outcome of each attempt. -/
def scrapeWithBrowser (script : Nat → Attempt) : RetryRun :=
  retryFrom script 3 2000 3

/-- Embedding of the result aggregation of `scrapeTempMailDomains` (smailpro
scraper, lines 37–56): `Promise.allSettled` over the per-engine sessions,
fulfilled domain sets merged into the shared set, rejections logged.  The
returned flag records whether the driver took its fatal `catch` branch
(`process.exit(1)`) — `Promise.allSettled` never rejects, so it never does. -/
def aggStep (acc : List (List Char)) (r : Except Unit (List (List Char))) :
    List (List Char) :=
  match r with
  | .ok ds => ds.foldl setAdd acc
  | .error _ => acc

def aggregateSessions (sessions : List (Except Unit (List (List Char)))) :
    List (List Char) × Bool :=
  (sessions.foldl aggStep [], false)

end RetryController

section SetAddLemmas

theorem mem_setAdd_iff {l : List (List Char)} {d x : List Char} :
    x ∈ setAdd l d ↔ x ∈ l ∨ x = d := by
  unfold setAdd
  by_cases h : d ∈ l
  · simp only [if_pos h]
    constructor
    · exact Or.inl
    · rintro (hx | rfl)
      · exact hx
      · exact h
  · simp [if_neg h]

theorem mem_foldl_setAdd {xs : List (List Char)} {init : List (List Char)}
    {x : List Char} : x ∈ xs.foldl setAdd init ↔ x ∈ init ∨ x ∈ xs := by
  induction xs generalizing init with
  | nil => simp
  | cons y ys ih =>
    simp only [List.foldl_cons, ih, mem_setAdd_iff, List.mem_cons]
    tauto

end SetAddLemmas

/-- C5 — Source-fetch error isolation: whenever retrieving or parsing the
resource fails (transport error, non-OK HTTP status, or JSON parse failure),
`fetchData` returns the empty list instead of propagating the error, so a
failing source never aborts the surrounding batch of fetch tasks. -/
theorem fetchData_error_isolation (env : FetchEnv) (key : Option (List Char))
    (col : Option Nat)
    (h : env = none ∨ (∃ r, env = some r ∧ r.ok = false) ∨
         (∃ r k, env = some r ∧ key = some k ∧ r.jsonOut = none)) :
    fetchData env key col = [] := by
  rcases h with rfl | ⟨r, rfl, hok⟩ | ⟨r, k, rfl, rfl, hjson⟩
  · rfl
  · simp [fetchData, fetchDataTry, hok]
  · by_cases hok : r.ok = false <;>
      simp [fetchData, fetchDataTry, hok, hjson]

/-- Witness for C5 at a concrete failing input (a transport error). -/
theorem fetchData_error_isolation_witness :
    fetchData none none none = [] :=
  fetchData_error_isolation none none none (Or.inl rfl)

/-- C9 — TLD boundary cases: the generator-side `isValidTld` rejects every
64-character TLD and every TLD beginning with a hyphen, and returns the same
verdict for "COM" and "com"; the generated membership-based `isValidTld`
does the same for every TLD set populated only with generator-valid TLDs. -/
theorem isValidTld_boundaries :
    (∀ t : List Char, t.length = 64 → isValidTld t = false) ∧
    (∀ rest : List Char, isValidTld ('-' :: rest) = false) ∧
    (isValidTld "COM".toList = isValidTld "com".toList) ∧
    (∀ tldSet : List (List Char), (∀ u ∈ tldSet, isValidTld u = true) →
      (∀ t : List Char, t.length = 64 → isValidTldGen tldSet t = false) ∧
      (∀ rest : List Char, isValidTldGen tldSet ('-' :: rest) = false) ∧
      isValidTldGen tldSet "COM".toList = isValidTldGen tldSet "com".toList) := by
  have hlower : ∀ t : List Char, (jsLower t).length = t.length := by
    intro t; simp [jsLower]
  have hdash : Char.toLower '-' = '-' := by decide
  refine ⟨?_, ?_, ?_, ?_⟩
  · intro t ht
    simp [isValidTld, ht]
  · intro rest
    simp [isValidTld]
  · decide
  · intro tldSet hsub
    refine ⟨?_, ?_, ?_⟩
    · intro t ht
      refine decide_eq_false ?_
      intro hmem
      have hv := hsub _ hmem
      have hl : (jsLower t).length = 64 := by rw [hlower]; exact ht
      rw [isValidTld, hl] at hv
      simp at hv
    · intro rest
      refine decide_eq_false ?_
      intro hmem
      have hv := hsub _ hmem
      have hcons : jsLower ('-' :: rest) = '-' :: jsLower rest := by
        simp [jsLower, hdash]
      rw [hcons] at hv
      simp [isValidTld] at hv
    · have h1 : jsLower "COM".toList = "com".toList := by decide
      have h2 : jsLower "com".toList = "com".toList := by decide
      show decide (jsLower "COM".toList ∈ tldSet) = decide (jsLower "com".toList ∈ tldSet)
      rw [h1, h2]

/-- Witness for C9 at a concrete TLD registry satisfying the generator
invariant. -/
theorem isValidTld_boundaries_witness :
    isValidTldGen ["com".toList] (List.replicate 64 'a') = false ∧
    isValidTldGen ["com".toList] ('-' :: "com".toList) = false ∧
    isValidTldGen ["com".toList] "COM".toList =
      isValidTldGen ["com".toList] "com".toList := by
  have h := (isValidTld_boundaries.2.2.2 ["com".toList] (by decide))
  exact ⟨h.1 _ (by simp), h.2.1 _, h.2.2⟩

section ProcessDomainsLemmas

theorem processDomains_allow_mem (v : List Char → Bool) (ds : List (List Char))
    (flag : Bool) (st : RState) (d : List Char)
    (h : d ∈ (processDomains v ds flag st).allow) :
    d ∈ st.allow ∨ v d = true := by
  induction ds generalizing st with
  | nil => exact Or.inl h
  | cons a tl ih =>
    simp only [processDomains, List.foldl_cons] at h
    rcases ih _ h with hmem | hv
    · by_cases hva : v a = true
      · cases flag with
        | true =>
          simp only [hva, if_true] at hmem
          rcases mem_setAdd_iff.mp hmem with h' | rfl
          · exact Or.inl h'
          · exact Or.inr hva
        | false =>
          by_cases hin : a ∈ st.allow <;> simp [hva, hin] at hmem <;> exact Or.inl hmem
      · rw [Bool.not_eq_true] at hva
        simp only [hva, Bool.false_eq_true, if_false] at hmem
        exact Or.inl hmem
    · exact Or.inr hv

theorem processDomains_disp_mem (v : List Char → Bool) (ds : List (List Char))
    (flag : Bool) (st : RState) (d : List Char)
    (h : d ∈ (processDomains v ds flag st).disp) :
    d ∈ st.disp ∨ v d = true := by
  induction ds generalizing st with
  | nil => exact Or.inl h
  | cons a tl ih =>
    simp only [processDomains, List.foldl_cons] at h
    rcases ih _ h with hmem | hv
    · by_cases hva : v a = true
      · cases flag with
        | true =>
          simp only [hva, if_true] at hmem
          exact Or.inl hmem
        | false =>
          by_cases hin : a ∈ st.allow
          · simp only [hva, hin, if_true, if_false] at hmem
            exact Or.inl hmem
          · simp only [hva, hin, if_true, if_false] at hmem
            rcases mem_setAdd_iff.mp hmem with h' | rfl
            · exact Or.inl h'
            · exact Or.inr hva
      · rw [Bool.not_eq_true] at hva
        simp only [hva, Bool.false_eq_true, if_false] at hmem
        exact Or.inl hmem
    · exact Or.inr hv

end ProcessDomainsLemmas

/-- C10 — the local allowlist bypasses validation: every retained line of the
local allowlist file (non-blank after trimming, not starting with a hash
before trimming) is added trimmed and lowercased to the allow set with no
validation, whereas a fetched candidate enters either set only if the
validator accepts it; in particular a line with leading whitespace before the
hash is not treated as a comment and lands in the allow set. -/
theorem local_allowlist_bypasses_validation :
    (∀ (fileLines : List (List Char)) (st : RState) (l : List Char),
        l ∈ fileLines → keepAllowLine l = true →
        jsLower (jsTrim l) ∈ (loadLocalAllowlist fileLines st).allow) ∧
    (∀ (v : List Char → Bool) (ds : List (List Char)) (flag : Bool)
        (st : RState) (d : List Char),
        d ∈ (processDomains v ds flag st).allow → d ∈ st.allow ∨ v d = true) ∧
    (∀ (v : List Char → Bool) (ds : List (List Char)) (flag : Bool)
        (st : RState) (d : List Char),
        d ∈ (processDomains v ds flag st).disp → d ∈ st.disp ∨ v d = true) ∧
    (loadLocalAllowlist [" #x.com".toList] ⟨[], []⟩).allow = ["#x.com".toList] := by
  refine ⟨?_, processDomains_allow_mem, processDomains_disp_mem, by decide⟩
  intro fileLines st l hmem hkeep
  simp only [loadLocalAllowlist]
  rw [mem_foldl_setAdd]
  right
  exact List.mem_map_of_mem _ (List.mem_filter.mpr ⟨hmem, hkeep⟩)

/-- Witness for C10 at concrete inputs: the whitespace-prefixed hash line is
retained unvalidated, and a fetched candidate's membership implies it was
validated. -/
theorem local_allowlist_bypasses_validation_witness :
    (jsLower (jsTrim " #x.com".toList) ∈
      (loadLocalAllowlist [" #x.com".toList] ⟨[], []⟩).allow) ∧
    ("a.com".toList ∈ (⟨[], []⟩ : RState).allow ∨ (fun _ => true) "a.com".toList = true) ∧
    ("a.com".toList ∈ (⟨[], []⟩ : RState).disp ∨ (fun _ => true) "a.com".toList = true) := by
  refine ⟨?_, ?_, ?_⟩
  · exact local_allowlist_bypasses_validation.1 _ ⟨[], []⟩ _ (by simp) (by decide)
  · exact local_allowlist_bypasses_validation.2.1 (fun _ => true) ["a.com".toList]
      true ⟨[], []⟩ _ (by decide)
  · exact local_allowlist_bypasses_validation.2.2.1 (fun _ => true) ["a.com".toList]
      false ⟨[], []⟩ _ (by decide)

/-- The C2 scenario's page behaviour: four iterations yielding valid domains
a.test, b.test, a.test, c.test, each followed by a successful
`generateNewEmail` call. -/
def c2Events : List PageEvent :=
  [.email (some "a.test".toList) true, .email (some "b.test".toList) true,
   .email (some "a.test".toList) true, .email (some "c.test".toList) true]

/-- C2 counterexample: with the maximum successful-change count 3 and page
domains a.test, b.test, a.test, c.test, the loop exits with a
discovered-domain set of size 2 that does not contain c.test — the counter
counts successful changes including duplicates, not distinct domains, so the
claimed final set of size 3 is wrong. -/
theorem scraper_count_counterexample :
    (extractLoop 3 c2Events [] 0).domains.length = 2 ∧
    "c.test".toList ∉ (extractLoop 3 c2Events [] 0).domains ∧
    (2 : Nat) ≠ 3 := by decide

/-- C2 amended: the loop terminates after exactly 3 successful changes,
counting the duplicate a.test as a success, so the discovered set at exit is
exactly the two domains a.test and b.test (c.test is never processed), and
exactly 3 iterations are executed, within the configured maximum. -/
theorem scraper_count_scenario :
    extractLoop 3 c2Events [] 0 =
      ⟨["a.test".toList, "b.test".toList], 3, 3, false⟩ := by decide

section VetoLemmas

theorem processDomains_deny_allow_eq (v : List Char → Bool)
    (ds : List (List Char)) (st : RState) :
    (processDomains v ds false st).allow = st.allow := by
  induction ds generalizing st with
  | nil => rfl
  | cons a tl ih =>
    simp only [processDomains, List.foldl_cons]
    by_cases hva : v a = true
    · by_cases hin : a ∈ st.allow <;> simp [hva, hin, processDomains] at ih ⊢ <;>
        exact ih _
    · rw [Bool.not_eq_true] at hva
      simp only [hva, Bool.false_eq_true, if_false]
      exact ih _

theorem processDomains_allow_disp_eq (v : List Char → Bool)
    (ds : List (List Char)) (st : RState) :
    (processDomains v ds true st).disp = st.disp := by
  induction ds generalizing st with
  | nil => rfl
  | cons a tl ih =>
    simp only [processDomains, List.foldl_cons]
    by_cases hva : v a = true <;> simp [hva, processDomains] at ih ⊢ <;> exact ih _

theorem processDomains_deny_veto (v : List Char → Bool)
    (ds : List (List Char)) (st : RState) (d : List Char)
    (hAllow : d ∈ st.allow) (hDisp : d ∉ st.disp) :
    d ∉ (processDomains v ds false st).disp := by
  induction ds generalizing st with
  | nil => exact hDisp
  | cons a tl ih =>
    simp only [processDomains, List.foldl_cons]
    by_cases hva : v a = true
    · by_cases hin : a ∈ st.allow
      · simp only [hva, hin, if_true, if_false]
        exact ih st hAllow hDisp
      · simp only [hva, hin, if_true, if_false]
        refine ih _ hAllow ?_
        intro hmem
        rcases mem_setAdd_iff.mp hmem with h' | rfl
        · exact hDisp h'
        · exact hin hAllow
    · rw [Bool.not_eq_true] at hva
      simp only [hva, Bool.false_eq_true, if_false]
      exact ih st hAllow hDisp

theorem runBatches_deny_allow_eq (v : List Char → Bool)
    (denies : List (List (List Char))) (st : RState) :
    (runBatches v (denies.map (fun b => (b, false))) st).allow = st.allow := by
  induction denies generalizing st with
  | nil => rfl
  | cons b tl ih =>
    simp only [runBatches, List.map_cons, List.foldl_cons] at ih ⊢
    rw [ih, processDomains_deny_allow_eq]

theorem runBatches_allow_disp_eq (v : List Char → Bool)
    (allows : List (List (List Char))) (st : RState) :
    (runBatches v (allows.map (fun b => (b, true))) st).disp = st.disp := by
  induction allows generalizing st with
  | nil => rfl
  | cons b tl ih =>
    simp only [runBatches, List.map_cons, List.foldl_cons] at ih ⊢
    rw [ih, processDomains_allow_disp_eq]

theorem runBatches_deny_veto (v : List Char → Bool)
    (denies : List (List (List Char))) (st : RState) (d : List Char)
    (hAllow : d ∈ st.allow) (hDisp : d ∉ st.disp) :
    d ∉ (runBatches v (denies.map (fun b => (b, false))) st).disp := by
  induction denies generalizing st with
  | nil => exact hDisp
  | cons b tl ih =>
    simp only [runBatches, List.map_cons, List.foldl_cons] at ih ⊢
    refine ih _ ?_ (processDomains_deny_veto v b st d hAllow hDisp)
    rw [processDomains_deny_allow_eq]
    exact hAllow

end VetoLemmas

/-- C1 counterexample: with the blacklist batch settling before the allowlist
batch, d.com is added to the Allow Set during the run, yet the Disposable Set
handed to the list writers still contains it — `main` applies no final
subtraction pass, so the published result depends on the interleaving. -/
theorem allow_veto_counterexample :
    ("d.com".toList ∈ (runBatches (validateDomain ["com".toList])
        [(["d.com".toList], false), (["d.com".toList], true)] ⟨[], []⟩).allow) ∧
    ("d.com".toList ∈ (publishedSets (runBatches (validateDomain ["com".toList])
        [(["d.com".toList], false), (["d.com".toList], true)] ⟨[], []⟩)).1) := by
  decide

/-- C1 amended: the allow-set veto is enforced only at the moment a blacklist
candidate is inserted (check-then-add), and `main` publishes the raw
accumulated sets with no final subtraction; consequently the veto is
guaranteed only for interleavings in which every allowlist batch settles
before every blacklist batch — for those, a domain in the final Allow Set
never appears in the published Disposable Set. -/
theorem allow_veto_allow_first (v : List Char → Bool)
    (allows denies : List (List (List Char))) (d : List Char)
    (h : d ∈ (runBatches v (allows.map (fun b => (b, true)) ++
        denies.map (fun b => (b, false))) ⟨[], []⟩).allow) :
    d ∉ (publishedSets (runBatches v (allows.map (fun b => (b, true)) ++
        denies.map (fun b => (b, false))) ⟨[], []⟩)).1 := by
  have hsplit : ∀ st : RState,
      runBatches v (allows.map (fun b => (b, true)) ++
        denies.map (fun b => (b, false))) st =
      runBatches v (denies.map (fun b => (b, false)))
        (runBatches v (allows.map (fun b => (b, true))) st) := by
    intro st
    simp [runBatches, List.foldl_append]
  rw [hsplit] at h ⊢
  set st1 := runBatches v (allows.map (fun b => (b, true))) ⟨[], []⟩ with hst1
  have hAllow : d ∈ st1.allow := by
    rw [runBatches_deny_allow_eq] at h
    exact h
  have hDisp : d ∉ st1.disp := by
    rw [hst1, runBatches_allow_disp_eq]
    simp
  exact runBatches_deny_veto v denies st1 d hAllow hDisp

/-- Witness for C1's amended theorem at a concrete allow-first interleaving. -/
theorem allow_veto_allow_first_witness :
    "d.com".toList ∉ (publishedSets (runBatches (validateDomain ["com".toList])
        ([["d.com".toList]].map (fun b => (b, true)) ++
         [["d.com".toList]].map (fun b => (b, false))) ⟨[], []⟩)).1 :=
  allow_veto_allow_first (validateDomain ["com".toList])
    [["d.com".toList]] [["d.com".toList]] "d.com".toList (by decide)

section ExtractLoopLemmas

theorem extractLoop_noEmail_starved (m : Nat) :
    ∀ (n : Nat) (doms : List (List Char)) (sc : Nat), sc < m →
    (extractLoop m (List.replicate n PageEvent.noEmail) doms sc).starved = true := by
  intro n
  induction n with
  | zero =>
    intro doms sc hsc
    rw [extractLoop.eq_def]
    simp [Nat.not_le.mpr hsc]
  | succ k ih =>
    intro doms sc hsc
    rw [List.replicate_succ, extractLoop.eq_def]
    simp only [Nat.not_le.mpr hsc, if_false]
    exact ih doms sc hsc

theorem extractLoop_progress_exits (m : Nat) :
    ∀ (evs : List PageEvent) (doms : List (List Char)) (sc : Nat),
    m - sc ≤ evs.length → (∀ e ∈ evs, progressEvent e = true) →
    (extractLoop m evs doms sc).starved = false ∧
    (extractLoop m evs doms sc).iters ≤ m - sc := by
  intro evs
  induction evs with
  | nil =>
    intro doms sc hlen _
    have hsc : m ≤ sc := by
      simp only [List.length_nil, Nat.le_zero] at hlen
      omega
    rw [extractLoop.eq_def]
    simp [hsc]
  | cons e rest ih =>
    intro doms sc hlen hprog
    by_cases hsc : m ≤ sc
    · rw [extractLoop.eq_def]
      simp [hsc]
    · have hsc' : sc < m := Nat.not_le.mp hsc
      have hrest : ∀ x ∈ rest, progressEvent x = true := by
        intro x hx; exact hprog x (List.mem_cons_of_mem _ hx)
      rw [extractLoop.eq_def]
      simp only [hsc, if_false]
      cases e with
      | noEmail =>
        have := hprog .noEmail (List.mem_cons_self _ _)
        simp [progressEvent] at this
      | email d genOk =>
        cases d with
        | none =>
          cases genOk with
          | true =>
            have := hprog (.email none true) (List.mem_cons_self _ _)
            simp [progressEvent] at this
          | false =>
            constructor
            · rfl
            · show 1 ≤ m - sc
              omega
        | some dd =>
          cases genOk with
          | true =>
            have hlen' : m - (sc + 1) ≤ rest.length := by
              simp only [List.length_cons] at hlen
              omega
            have hr := ih (setAdd doms dd) (sc + 1) hlen' hrest
            refine ⟨hr.1, ?_⟩
            have := hr.2
            simp only []
            omega
          | false =>
            constructor
            · rfl
            · show 1 ≤ m - sc
              omega

end ExtractLoopLemmas

/-- C7 counterexample: a page perpetually yielding no readable email text
starves the extraction loop forever — no finite number of page events makes
the loop exit, because a no-email iteration changes nothing and the guard
only tests the successful-change counter, so the loop is not bounded. -/
theorem extractLoop_nontermination_counterexample :
    ¬ ∃ n : Nat,
      (extractLoop 15 (List.replicate n PageEvent.noEmail) [] 0).starved = false := by
  rintro ⟨n, hn⟩
  rw [extractLoop_noEmail_starved 15 n [] 0 (by norm_num)] at hn
  exact absurd hn (by simp)

/-- C7 amended: the loop executes at most the configured maximum
successful-change count of iterations, and terminates within that bound,
whenever every iteration makes progress (records a valid domain or raises an
error); but a page perpetually yielding no readable email text makes the loop
iterate forever, so boundedness does not hold for every response sequence. -/
theorem extractLoop_bounded_on_progress (m : Nat) (evs : List PageEvent)
    (hlen : m ≤ evs.length) (hprog : ∀ e ∈ evs, progressEvent e = true) :
    (extractLoop m evs [] 0).starved = false ∧
    (extractLoop m evs [] 0).iters ≤ m := by
  have h := extractLoop_progress_exits m evs [] 0 (by omega) hprog
  simpa using h

/-- Witness for C7's amended theorem at a concrete all-progress event list. -/
theorem extractLoop_bounded_on_progress_witness :
    (extractLoop 2 [PageEvent.email (some "a.test".toList) true,
        PageEvent.email (some "b.test".toList) true] [] 0).starved = false ∧
    (extractLoop 2 [PageEvent.email (some "a.test".toList) true,
        PageEvent.email (some "b.test".toList) true] [] 0).iters ≤ 2 :=
  extractLoop_bounded_on_progress 2 _ (by simp) (by decide)

section RetryLemmas

theorem mem_foldl_aggStep :
    ∀ (sessions : List (Except Unit (List (List Char))))
      (acc : List (List Char)) (d : List Char),
    (d ∈ acc ∨ ∃ ds, Except.ok ds ∈ sessions ∧ d ∈ ds) →
    d ∈ sessions.foldl aggStep acc := by
  intro sessions
  induction sessions with
  | nil =>
    intro acc d h
    rcases h with h | ⟨ds, hds, _⟩
    · exact h
    · simp at hds
  | cons r tl ih =>
    intro acc d h
    simp only [List.foldl_cons]
    rcases h with h | ⟨ds, hds, hd⟩
    · refine ih _ _ (Or.inl ?_)
      cases r with
      | ok ds' => exact mem_foldl_setAdd.mpr (Or.inl h)
      | error e => exact h
    · rcases List.mem_cons.mp hds with rfl | htl
      · refine ih _ _ (Or.inl ?_)
        exact mem_foldl_setAdd.mpr (Or.inr hd)
      · exact ih _ _ (Or.inr ⟨ds, htl, hd⟩)

theorem retryFrom_exhaust (script : Nat → Attempt) (maxR delayMs : Nat) :
    ∀ r : Nat, r ≤ maxR →
    (∀ i, maxR - r < i → i ≤ maxR → ∀ ds, script i ≠ .ok ds) →
    (retryFrom script maxR delayMs r).result.isOk = false ∧
    (retryFrom script maxR delayMs r).attempts = r := by
  intro r
  induction r with
  | zero => intro _ _; exact ⟨rfl, rfl⟩
  | succ k ih =>
    intro hle hna
    have hk : k ≤ maxR := Nat.le_of_succ_le hle
    have hcur : ∀ ds, script (maxR - k) ≠ .ok ds :=
      fun ds => hna (maxR - k) (by omega) (by omega) ds
    have hrest : ∀ i, maxR - k < i → i ≤ maxR → ∀ ds, script i ≠ .ok ds := by
      intro i h1 h2
      exact hna i (by omega) h2
    have hih := ih hk hrest
    rw [retryFrom]
    rcases e : script (maxR - k) with _ | _ | ds
    · simp only [e]
      exact ⟨hih.1, by simp [hih.2]⟩
    · simp only [e]
      exact ⟨hih.1, by simp [hih.2]⟩
    · exact absurd e (hcur ds)

end RetryLemmas

/-- C8 counterexample: a session whose browser fails to launch on all three
attempts is retried to the attempt ceiling and raises the last error, but no
inter-attempt delay at all is inserted — the launch-failure path `continue`s
straight to the next attempt, so the multiplicatively increasing delays
[2000, 4000] that the claim requires for every uncaught session error are
absent. -/
theorem retry_no_delay_counterexample :
    (scrapeWithBrowser (fun _ => Attempt.launchFail)).attempts = 3 ∧
    (scrapeWithBrowser (fun _ => Attempt.launchFail)).result.isOk = false ∧
    (scrapeWithBrowser (fun _ => Attempt.launchFail)).delays = [] ∧
    ([] : List Nat) ≠ [2000 * 1, 2000 * 2] := by
  refine ⟨by decide, rfl, rfl, by decide⟩

/-- C8 amended: the session is retried up to the fixed attempt ceiling; the
multiplicatively increasing inter-attempt delay is inserted only after
post-launch session errors, while a launch failure retries immediately with
no delay; exhausting all attempts raises the last error to the caller; and
the aggregation driver, which runs the per-engine sessions under
`Promise.allSettled`, publishes every domain of every fulfilled session and
never takes its fatal branch, so retry exhaustion is never fatal to the run. -/
theorem retry_backoff_amended :
    ((scrapeWithBrowser (fun _ => Attempt.sessErr)).delays = [2000 * 1, 2000 * 2]) ∧
    ((scrapeWithBrowser (fun _ => Attempt.launchFail)).delays = []) ∧
    (∀ script : Nat → Attempt,
      (∀ i, 0 < i → i ≤ 3 → ∀ ds, script i ≠ .ok ds) →
      (scrapeWithBrowser script).result.isOk = false ∧
      (scrapeWithBrowser script).attempts = 3) ∧
    (∀ (sessions : List (Except Unit (List (List Char))))
       (ds : List (List Char)) (d : List Char),
      Except.ok ds ∈ sessions → d ∈ ds →
      d ∈ (aggregateSessions sessions).1 ∧ (aggregateSessions sessions).2 = false) := by
  refine ⟨by decide, rfl, ?_, ?_⟩
  · intro script hna
    exact retryFrom_exhaust script 3 2000 3 (by omega)
      (by intro i h1 h2 ds; exact hna i (by omega) h2 ds)
  · intro sessions ds d hs hd
    exact ⟨mem_foldl_aggStep sessions [] d (Or.inr ⟨ds, hs, hd⟩), rfl⟩

/-- Witness for C8's amended theorem at concrete inputs: an all-session-error
script exhausts its attempts, and a fulfilled session's domain is published. -/
theorem retry_backoff_amended_witness :
    ((scrapeWithBrowser (fun _ => Attempt.sessErr)).result.isOk = false ∧
     (scrapeWithBrowser (fun _ => Attempt.sessErr)).attempts = 3) ∧
    ("x.com".toList ∈ (aggregateSessions [Except.ok ["x.com".toList]]).1 ∧
     (aggregateSessions [Except.ok ["x.com".toList]]).2 = false) := by
  constructor
  · refine retry_backoff_amended.2.2.1 (fun _ => Attempt.sessErr) ?_
    intro i _ _ ds h
    simp at h
  · refine retry_backoff_amended.2.2.2 [Except.ok ["x.com".toList]]
      ["x.com".toList] "x.com".toList ?_ ?_
    · simp
    · simp

section FormatParityLemmas

/-- A candidate string already in the specification's normalised Domain form
(§3: lowercase, trimmed) and free of the encoding metacharacters (line
breaks, commas, double quotes, comment prefix) — the shape in which the same
underlying domain data can be carried by all three source encodings. -/
def normalizedCandidate (d : List Char) : Bool :=
  !d.isEmpty && !startsWithHash d && decide (jsLower d = d) &&
  d.all (fun c => !jsIsWs c && !(c = ',') && !(c = '"'))

theorem jsSplit_cons (c x : Char) (xs : List Char) :
    jsSplit c (x :: xs) =
      match jsSplit c xs with
      | [] => [[]]
      | r :: rs => if x = c then [] :: r :: rs else (x :: r) :: rs := rfl

theorem jsSplit_ne_nil (c : Char) (l : List Char) : jsSplit c l ≠ [] := by
  induction l with
  | nil => simp [jsSplit]
  | cons x xs ih =>
    simp only [jsSplit]
    rcases h : jsSplit c xs with _ | ⟨r, rs⟩
    · simp
    · by_cases hx : x = c <;> simp [hx]

theorem jsSplit_eq_single {c : Char} {l : List Char} (h : c ∉ l) :
    jsSplit c l = [l] := by
  induction l with
  | nil => rfl
  | cons x xs ih =>
    have hx : ¬ x = c := by
      rintro rfl
      exact h (List.mem_cons_self _ _)
    have hxs : c ∉ xs := fun hm => h (List.mem_cons_of_mem _ hm)
    simp only [jsSplit, ih hxs]
    simp [hx]

theorem jsSplit_append {c : Char} {l rest : List Char} (h : c ∉ l) :
    jsSplit c (l ++ c :: rest) = l :: jsSplit c rest := by
  induction l with
  | nil =>
    simp only [List.nil_append, jsSplit]
    rcases hr : jsSplit c rest with _ | ⟨r, rs⟩
    · exact absurd hr (jsSplit_ne_nil c rest)
    · simp
  | cons x xs ih =>
    have hx : ¬ x = c := by
      rintro rfl
      exact h (List.mem_cons_self _ _)
    have hxs : c ∉ xs := fun hm => h (List.mem_cons_of_mem _ hm)
    rw [List.cons_append, jsSplit_cons, ih hxs]
    simp [hx]

theorem jsSplit_joinWith {c : Char} {ds : List (List Char)} (hne : ds ≠ [])
    (h : ∀ d ∈ ds, c ∉ d) : jsSplit c (joinWith c ds) = ds := by
  induction ds with
  | nil => exact absurd rfl hne
  | cons d tl ih =>
    cases tl with
    | nil => exact jsSplit_eq_single (h d (List.mem_cons_self _ _))
    | cons d' tl' =>
      have hj : joinWith c (d :: d' :: tl') = d ++ c :: joinWith c (d' :: tl') := rfl
      rw [hj, jsSplit_append (h d (List.mem_cons_self _ _)),
        ih (by simp) (fun x hx => h x (List.mem_cons_of_mem _ hx))]

theorem jsTrim_eq_self {l : List Char} (h : ∀ c ∈ l, jsIsWs c = false) :
    jsTrim l = l := by
  have h1 : l.dropWhile jsIsWs = l := by
    cases l with
    | nil => rfl
    | cons x xs => simp [List.dropWhile_cons, h x (List.mem_cons_self _ _)]
  have h2 : l.reverse.dropWhile jsIsWs = l.reverse := by
    cases hr : l.reverse with
    | nil => rfl
    | cons x xs =>
      have hx : x ∈ l := by
        rw [← List.mem_reverse, hr]
        exact List.mem_cons_self _ _
      simp [List.dropWhile_cons, h x hx]
  simp [jsTrim, h1, h2]

theorem map_id_of_eq {α : Type} {f : α → α} {ds : List α}
    (h : ∀ d ∈ ds, f d = d) : ds.map f = ds := by
  induction ds with
  | nil => rfl
  | cons a tl ih =>
    rw [List.map_cons, h a (List.mem_cons_self _ _),
      ih (fun x hx => h x (List.mem_cons_of_mem _ hx))]

theorem normalized_facts {d : List Char} (h : normalizedCandidate d = true) :
    jsTrim d = d ∧ jsLower d = d ∧ keepLine d = true ∧
    '\n' ∉ d ∧ ',' ∉ d ∧ ∀ c ∈ d, ¬(c = '"') := by
  simp only [normalizedCandidate, Bool.and_eq_true, List.all_eq_true,
    decide_eq_true_eq, Bool.not_eq_true'] at h
  obtain ⟨⟨⟨hne, hhash⟩, hlow⟩, hall⟩ := h
  have hws : ∀ c ∈ d, jsIsWs c = false := by
    intro c hc
    have := hall c hc
    simp only [Bool.and_eq_true, Bool.not_eq_true'] at this
    exact this.1.1
  refine ⟨jsTrim_eq_self hws, hlow, ?_, ?_, ?_, ?_⟩
  · simp [keepLine, hne, hhash]
  · intro hmem
    have := hws _ hmem
    simp [jsIsWs] at this
  · intro hmem
    have h2 := (hall _ hmem).1.2
    simp at h2
  · intro c hc
    have h2 := (hall c hc).2
    simpa using h2

theorem plainExtract_clean {ds : List (List Char)}
    (h : ∀ d ∈ ds, normalizedCandidate d = true) :
    plainExtract (joinWith '\n' ds) = ds := by
  cases ds with
  | nil => rfl
  | cons d0 tl =>
    rw [plainExtract, jsSplit_joinWith (by simp)
      (fun x hx => (normalized_facts (h x hx)).2.2.2.1)]
    rw [map_id_of_eq (fun x hx => by
      rw [(normalized_facts (h x hx)).1, (normalized_facts (h x hx)).2.1])]
    exact List.filter_eq_self.mpr (fun x hx => (normalized_facts (h x hx)).2.2.1)

theorem csvExtract_clean {ds : List (List Char)}
    (h : ∀ d ∈ ds, normalizedCandidate d = true) :
    csvExtract (joinWith '\n' ds) 0 = ds := by
  cases ds with
  | nil => rfl
  | cons d0 tl =>
    rw [csvExtract, jsSplit_joinWith (by simp)
      (fun x hx => (normalized_facts (h x hx)).2.2.2.1)]
    rw [map_id_of_eq (fun x hx => by
      rw [jsSplit_eq_single (normalized_facts (h x hx)).2.2.2.2.1]
      show (jsLower (jsTrim x)).filter (fun c => decide (c ≠ '"')) = x
      rw [(normalized_facts (h x hx)).1, (normalized_facts (h x hx)).2.1]
      refine List.filter_eq_self.mpr (fun c hc => ?_)
      simpa using (normalized_facts (h x hx)).2.2.2.2.2 c hc)]
    exact List.filter_eq_self.mpr (fun x hx => (normalized_facts (h x hx)).2.2.1)

end FormatParityLemmas

/-- C6 — format parity: when the same underlying domain data (a list of
candidates in the specification's normalised Domain form) is delivered as a
plain line-per-domain body, as a structured JSON body fetched with extraction
key ".", and as a delimited body fetched with column index 0, the three
source-fetch paths yield identical candidate sets after validation by any
domain validator. -/
theorem format_parity (ds : List (List Char)) (v : List Char → Bool)
    (text : List Char)
    (hclean : ∀ d ∈ ds, normalizedCandidate d = true) :
    (fetchData (some ⟨true, none, joinWith '\n' ds⟩) none none).filter v =
      ds.filter v ∧
    (fetchData (some ⟨true, some (.arr ds), text⟩) (some ['.']) none).filter v =
      ds.filter v ∧
    (fetchData (some ⟨true, none, joinWith '\n' ds⟩) none (some 0)).filter v =
      ds.filter v := by
  refine ⟨?_, ?_, ?_⟩
  · have hp : fetchData (some ⟨true, none, joinWith '\n' ds⟩) none none =
        plainExtract (joinWith '\n' ds) := rfl
    rw [hp, plainExtract_clean hclean]
  · have hj : fetchData (some ⟨true, some (.arr ds), text⟩) (some ['.']) none = ds := rfl
    rw [hj]
  · have hc : fetchData (some ⟨true, none, joinWith '\n' ds⟩) none (some 0) =
        csvExtract (joinWith '\n' ds) 0 := rfl
    rw [hc, csvExtract_clean hclean]

/-- Witness for C6 at a concrete normalised domain list. -/
theorem format_parity_witness :
    (fetchData (some ⟨true, none,
        joinWith '\n' ["example.com".toList, "evil.tk".toList]⟩) none none).filter
      (fun _ => true) =
      (["example.com".toList, "evil.tk".toList]).filter (fun _ => true) :=
  (format_parity ["example.com".toList, "evil.tk".toList] (fun _ => true) []
    (by decide)).1

section ThrottleLemmas

/-- The multiset of all submitted tasks as distributed over a configuration's
pending, running, and result lists. -/
def TBag {α : Type} (s : TState α) : Multiset α :=
  (↑s.pending : Multiset α) + ↑s.running + ↑s.results

/-- Inductive invariant of `throttlePromises` executions: no task is lost or
duplicated, the captured race length bounds the unresolved count while the
driver waits on `Promise.race`, the loop head always has room for one more
task, and the final wait starts only after every task has been submitted. -/
def TInv {α : Type} (N : Nat) (tasks : List α) (s : TState α) : Prop :=
  TBag s = ↑tasks ∧
  (s.phase = .raceWait → 1 ≤ s.raceLen ∧ s.running.length ≤ s.raceLen ∧ s.raceLen ≤ N) ∧
  (s.phase = .loop → s.running.length + 1 ≤ N) ∧
  (s.phase = .allWait → s.pending = [] ∧ s.running.length ≤ N)

theorem tinit_inv {α : Type} (N : Nat) (hN : 0 < N) (tasks : List α) :
    TInv N tasks (tInit tasks) := by
  refine ⟨by simp [TBag, tInit], ?_, ?_, ?_⟩ <;> intro h
  · simp [tInit] at h
  · simpa [tInit] using hN
  · simp [tInit] at h


theorem tstep_inv {α : Type} {N : Nat} {tasks : List α} {s s' : TState α}
    (hstep : TStep N s s') (hinv : TInv N tasks s) : TInv N tasks s' := by
  obtain ⟨hbag, hrace, hloop, hall⟩ := hinv
  cases hstep with
  | startRace t rest run res k h =>
    have hN' := hloop rfl
    dsimp only at hN'
    refine ⟨?_, ?_, ?_, ?_⟩
    · refine Eq.trans ?_ hbag
      simp only [TBag, ← Multiset.coe_add, ← Multiset.cons_coe,
        ← Multiset.singleton_add, Multiset.coe_nil]
      abel
    · intro _
      dsimp only
      refine ⟨by omega, ?_, by omega⟩
      simp
    · intro h'
      dsimp only at h'
      simp at h'
    · intro h'
      dsimp only at h'
      simp at h'
  | startSkip t rest run res k h =>
    refine ⟨?_, ?_, ?_, ?_⟩
    · refine Eq.trans ?_ hbag
      simp only [TBag, ← Multiset.coe_add, ← Multiset.cons_coe,
        ← Multiset.singleton_add, Multiset.coe_nil]
      abel
    · intro h'
      dsimp only at h'
      simp at h'
    · intro _
      dsimp only
      simp only [List.length_append, List.length_cons, List.length_nil]
      omega
    · intro h'
      dsimp only at h'
      simp at h'
  | enterAll run res k =>
    have hN' := hloop rfl
    dsimp only at hN'
    refine ⟨hbag, ?_, ?_, ?_⟩
    · intro h'
      dsimp only at h'
      simp at h'
    · intro h'
      dsimp only at h'
      simp at h'
    · intro _
      dsimp only
      exact ⟨rfl, by omega⟩
  | settle p l₁ t l₂ res ph k h =>
    refine ⟨?_, ?_, ?_, ?_⟩
    · refine Eq.trans ?_ hbag
      simp only [TBag, ← Multiset.coe_add, ← Multiset.cons_coe,
        ← Multiset.singleton_add, Multiset.coe_nil]
      abel
    · intro h'
      dsimp only at h' ⊢
      have := hrace h'
      dsimp only at this
      simp only [List.length_append, List.length_cons] at this ⊢
      omega
    · intro h'
      dsimp only at h'
      exact absurd h' h
    · intro h'
      dsimp only at h' ⊢
      have := hall h'
      dsimp only at this
      simp only [List.length_append, List.length_cons] at this ⊢
      exact ⟨this.1, by omega⟩
  | resume p run res k h =>
    have hk := hrace rfl
    dsimp only at hk
    refine ⟨hbag, ?_, ?_, ?_⟩
    · intro h'
      dsimp only at h'
      simp at h'
    · intro _
      dsimp only
      omega
    · intro h'
      dsimp only at h'
      simp at h'

theorem treach_inv {α : Type} {N : Nat} {tasks : List α} (hN : 0 < N)
    {s : TState α} (h : TReach N tasks s) : TInv N tasks s := by
  induction h with
  | refl => exact tinit_inv N hN tasks
  | tail hr hstep ih => exact tstep_inv hstep ih

theorem tstep_measure_lt {α : Type} {N : Nat} {s s' : TState α}
    (h : TStep N s s') : tMeasure s' < tMeasure s := by
  cases h <;>
    simp [tMeasure, phaseWeight, List.length_append] <;> omega

/-- Any transition's source configuration is in the loop, has an unresolved
task, or is a resumable race wait — used to show completed configurations are
exactly the stuck ones. -/
theorem tstep_shape {α : Type} {N : Nat} {s s' : TState α} (h : TStep N s s') :
    s.phase = .loop ∨ s.running ≠ [] ∨
    (s.phase = .raceWait ∧ s.running.length < s.raceLen) := by
  cases h with
  | startRace t rest run res k h => exact Or.inl rfl
  | startSkip t rest run res k h => exact Or.inl rfl
  | enterAll run res k => exact Or.inl rfl
  | settle p l₁ t l₂ res ph k h =>
    refine Or.inr (Or.inl ?_)
    dsimp only
    simp
  | resume p run res k h => exact Or.inr (Or.inr ⟨rfl, h⟩)

end ThrottleLemmas

/-- C3 — Concurrency Limiter completeness: for every limit N > 0 and every
finite list of tasks that all settle successfully, every execution of
`throttlePromises` terminates (every transition strictly decreases the
measure, so no infinite run exists) and cannot deadlock: every reachable
configuration from which no transition is possible carries exactly one result
per submitted task. -/
theorem throttlePromises_completes {α : Type} (tasks : List α) (N : Nat)
    (hN : 0 < N) :
    (∀ s s' : TState α, TStep N s s' → tMeasure s' < tMeasure s) ∧
    (∀ s : TState α, TReach N tasks s → TStuck N s →
      (↑s.results : Multiset α) = ↑tasks ∧ s.results.length = tasks.length) := by
  refine ⟨fun s s' h => tstep_measure_lt h, ?_⟩
  intro s hreach hstuck
  obtain ⟨hbag, hrace, hloop, hall⟩ := treach_inv hN hreach
  obtain ⟨p, run, res, ph, k⟩ := s
  cases ph with
  | loop =>
    exfalso
    cases p with
    | nil => exact hstuck _ (TStep.enterAll run res k)
    | cons t rest =>
      by_cases hle : N ≤ run.length + 1
      · exact hstuck _ (TStep.startRace t rest run res k hle)
      · exact hstuck _ (TStep.startSkip t rest run res k (Nat.not_le.mp hle))
  | raceWait =>
    exfalso
    cases run with
    | nil =>
      have hk := (hrace rfl).1
      dsimp only at hk
      refine hstuck _ (TStep.resume p [] res k ?_)
      simp only [List.length_nil]
      omega
    | cons t l₂ =>
      exact hstuck _ (TStep.settle p [] t l₂ res .raceWait k (by decide))
  | allWait =>
    cases run with
    | cons t l₂ =>
      exact absurd (TStep.settle p [] t l₂ res .allWait k (by decide)) (hstuck _)
    | nil =>
      have hp := (hall rfl).1
      dsimp only at hp
      subst hp
      have hres : (↑res : Multiset α) = ↑tasks := by
        simpa [TBag] using hbag
      refine ⟨hres, ?_⟩
      have := congrArg Multiset.card hres
      simpa using this

/-- Witness for C3 at a concrete task list, limit, transition, and stuck
reachable configuration. -/
theorem throttlePromises_completes_witness :
    tMeasure (⟨[], [], [], .allWait, 0⟩ : TState Nat) <
      tMeasure (tInit ([] : List Nat)) ∧
    (↑(⟨[], [], [], .allWait, 0⟩ : TState Nat).results : Multiset Nat) =
      ↑([] : List Nat) := by
  have h := throttlePromises_completes ([] : List Nat) 1 (by norm_num)
  refine ⟨h.1 _ _ (TStep.enterAll [] [] 0), ?_⟩
  refine (h.2 ⟨[], [], [], .allWait, 0⟩ ?_ ?_).1
  · exact Relation.ReflTransGen.single (TStep.enterAll [] [] 0)
  · intro s' hs
    rcases tstep_shape hs with h' | h' | ⟨h', _⟩ <;> simp at h'

/-- C4 — Concurrency Limiter bound: for every task list and every limit
N > 0, in every configuration reachable during an execution of
`throttlePromises` at most N submitted tasks are simultaneously unresolved
(started but not yet settled). -/
theorem throttlePromises_bound {α : Type} (tasks : List α) (N : Nat)
    (hN : 0 < N) (s : TState α) (h : TReach N tasks s) :
    s.running.length ≤ N := by
  obtain ⟨hbag, hrace, hloop, hall⟩ := treach_inv hN h
  obtain ⟨p, run, res, ph, k⟩ := s
  cases ph with
  | loop =>
    have := hloop rfl
    dsimp only at this ⊢
    omega
  | raceWait =>
    have := hrace rfl
    dsimp only at this ⊢
    omega
  | allWait =>
    have := (hall rfl).2
    dsimp only at this ⊢
    omega

/-- Witness for C4 at the initial configuration of a concrete run. -/
theorem throttlePromises_bound_witness :
    (tInit [(0 : Nat)]).running.length ≤ 1 :=
  throttlePromises_bound [0] 1 (by norm_num) _ Relation.ReflTransGen.refl
